import Mathlib

/-
Verification of the minimum-enclosing-circle (MEC) specification for the
`smallest_enclosing_circle` repository.

The repository's visible sources are example and benchmarking scripts that call
the core routine `min_enclosing_circle` as an opaque function; the geometric
algorithm itself is not part of the visible sources.  Following the
specification, the core is modelled here with exact rational arithmetic:
points are pairs of rationals, circles carry their center and *squared*
radius (the squared radius of every circle produced by the algorithm is
rational, while the radius itself need not be), and the tolerance parameter
of the containment predicate is taken as zero, which is the faithful choice
for exact arithmetic.  The incremental randomized solver is modelled with the
identity permutation of the working copy (the specification states that the
permutation affects performance only, not correctness).
-/

set_option maxHeartbeats 1600000

namespace MEC

/-- Modelled from the spec: a Point is a pair of (finite) real coordinates;
here a pair of rationals, exact arithmetic standing in for doubles. -/
abbrev PointQ := ℚ × ℚ

/-- Modelled from the spec: a Circle is a center Point and a non-negative
radius; the radius is represented by its square, which stays rational. -/
structure CircleQ where
  center : PointQ
  sqRadius : ℚ
  deriving DecidableEq, Repr

/-- Modelled from the spec: squared Euclidean distance between two points
(the geometry primitives compare distances, which is equivalent to comparing
their squares). -/
def sqDistQ (a b : PointQ) : ℚ :=
  (a.1 - b.1) ^ 2 + (a.2 - b.2) ^ 2

/-- Modelled from the spec: `contains(circle, p, eps)` is true iff
`distance(circle.center, p) <= circle.radius + eps`; with exact rational
arithmetic the tolerance is zero and the comparison is done on squares. -/
def containsQ (C : CircleQ) (p : PointQ) : Bool :=
  decide (sqDistQ C.center p ≤ C.sqRadius)

/-- Modelled from the spec: `circleFromTwoPoints(a, b)` is the circle with
diameter `ab` (center the midpoint, radius half the distance); defined even
when `a = b` (radius 0). -/
def circleFromTwoPoints (a b : PointQ) : CircleQ :=
  ⟨((a.1 + b.1) / 2, (a.2 + b.2) / 2), sqDistQ a b / 4⟩

/-- Modelled from the spec: the determinant of the linear system defining the
circumcenter of three points; it vanishes exactly when the points are
collinear. -/
def circumDet (a b c : PointQ) : ℚ :=
  2 * (a.1 * (b.2 - c.2) + b.1 * (c.2 - a.2) + c.1 * (a.2 - b.2))

/-- Modelled from the spec: the circumcenter of three points by the standard
determinant formula (meaningful only when `circumDet` does not vanish). -/
def circumCenter (a b c : PointQ) : PointQ :=
  (((a.1 ^ 2 + a.2 ^ 2) * (b.2 - c.2) + (b.1 ^ 2 + b.2 ^ 2) * (c.2 - a.2) +
      (c.1 ^ 2 + c.2 ^ 2) * (a.2 - b.2)) / circumDet a b c,
   ((a.1 ^ 2 + a.2 ^ 2) * (c.1 - b.1) + (b.1 ^ 2 + b.2 ^ 2) * (a.1 - c.1) +
      (c.1 ^ 2 + c.2 ^ 2) * (b.1 - a.1)) / circumDet a b c)

/-- Modelled from the spec: `circleFromThreePoints(a, b, c)` computes the
unique circle through three non-collinear points via the standard
determinant-based circumcenter formula, and signals the degenerate
(collinear) case by returning `none`. -/
def circleFromThreePoints (a b c : PointQ) : Option CircleQ :=
  if circumDet a b c = 0 then none
  else some ⟨circumCenter a b c, sqDistQ (circumCenter a b c) a⟩

/-- Modelled from the spec: the circle-from-three-points construction with the
mandated local recovery of the degenerate (collinear) case — fall back to
treating the three points pairwise, i.e. to a two-point diameter circle. -/
def circleFromThreePointsSafe (a b c : PointQ) : CircleQ :=
  (circleFromThreePoints a b c).getD
    (if containsQ (circleFromTwoPoints a b) c then circleFromTwoPoints a b
     else if containsQ (circleFromTwoPoints a c) b then circleFromTwoPoints a c
     else circleFromTwoPoints b c)

/-- Modelled from the spec: the trivial-case solver, the closed-form minimal
circle for 0, 1, 2 or 3 points.  For 3 points it checks each of the three
two-point diameters first and only falls back to the circumcircle when none
of them encloses the remaining point. -/
def solveTrivial : List PointQ → CircleQ
  | [] => ⟨(0, 0), 0⟩
  | [p] => ⟨p, 0⟩
  | [a, b] => circleFromTwoPoints a b
  | a :: b :: c :: _ =>
    if containsQ (circleFromTwoPoints a b) c then circleFromTwoPoints a b
    else if containsQ (circleFromTwoPoints a c) b then circleFromTwoPoints a c
    else if containsQ (circleFromTwoPoints b c) a then circleFromTwoPoints b c
    else (circleFromThreePoints a b c).getD (circleFromTwoPoints a b)

/-- Modelled from the spec: innermost nested scan of the incremental solver —
the sub-candidate is constrained to pass through the two support points `p`
and `q`; any scanned point `r` violating it constrains the circle to pass
through `p`, `q` and `r` (degenerate triples recovered locally). -/
def innerScan (p q : PointQ) : CircleQ → List PointQ → CircleQ
  | C, [] => C
  | C, r :: rest =>
    if containsQ C r then innerScan p q C rest
    else innerScan p q (circleFromThreePointsSafe p q r) rest

/-- Modelled from the spec: middle nested scan — the sub-candidate passes
through the support point `p`; a violating point `q` triggers the deeper scan
constrained through `p` and `q`, initialized with `circleFromTwoPoints`.
`seen` is the already processed part of the scanned prefix. -/
def middleScan (p : PointQ) : List PointQ → CircleQ → List PointQ → CircleQ
  | _, C, [] => C
  | seen, C, q :: rest =>
    if containsQ C q then middleScan p (q :: seen) C rest
    else middleScan p (q :: seen) (innerScan p q (circleFromTwoPoints p q) seen) rest

/-- Modelled from the spec: outer scan of the incremental (Welzl-style)
solver.  `done` is the processed prefix of the working copy; a point `p`
outside the candidate triggers recomputation via the nested scan constrained
through `p`, and `p` is moved to the front of the prefix ordering. -/
def outerScan : List PointQ → CircleQ → List PointQ → CircleQ
  | _, C, [] => C
  | done, C, p :: rest =>
    if containsQ C p then outerScan (p :: done) C rest
    else outerScan (p :: done) (middleScan p [] ⟨p, 0⟩ done) rest

/-- Modelled from the spec: the core solver on an already validated working
copy — candidate initialized from the trivial solver on the first point (an
empty input yields the radius-0 sentinel circle at the origin), then the
incremental scan. -/
def welzl (pts : List PointQ) : CircleQ :=
  match pts with
  | [] => ⟨(0, 0), 0⟩
  | p :: rest => outerScan [p] (solveTrivial [p]) rest

/-- Modelled from the spec: an input coordinate as a double-precision value —
either finite (carrying its exact value) or one of the non-finite values
NaN, +infinity, -infinity. -/
inductive FloatVal where
  | finite (val : ℚ)
  | nan
  | posInf
  | negInf
  deriving DecidableEq, Repr

/-- Modelled from the spec: finiteness test on an input coordinate. -/
def FloatVal.isFinite : FloatVal → Bool
  | .finite _ => true
  | _ => false

/-- Modelled from the spec: the exact value of a finite coordinate (junk value
0 on non-finite input, which the solver never consults). -/
def FloatVal.toRat : FloatVal → ℚ
  | .finite v => v
  | _ => 0

/-- Modelled from the spec: a raw caller-supplied 2D point whose coordinates
may be non-finite. -/
structure RawPoint where
  x : FloatVal
  y : FloatVal
  deriving DecidableEq, Repr

/-- Modelled from the spec: a raw point is well-formed when both coordinates
are finite. -/
def RawPoint.isFinite (p : RawPoint) : Bool :=
  p.x.isFinite && p.y.isFinite

/-- Modelled from the spec: conversion of a validated raw point to an exact
point. -/
def RawPoint.toPointQ (p : RawPoint) : PointQ :=
  (p.x.toRat, p.y.toRat)

/-- Embedding of an exact point as a (finite) raw point. -/
def finiteRaw (p : PointQ) : RawPoint :=
  ⟨.finite p.1, .finite p.2⟩

/-- Modelled from the spec: the error taxonomy visible to the caller —
`InvalidInput` (a coordinate is NaN or infinite) is the only caller-visible
failure mode. -/
inductive MECError where
  | invalidInput
  deriving DecidableEq, Repr

/-- Modelled from the spec: the single entry point
`minEnclosingCircle(points)`.  A non-finite coordinate fails immediately with
`InvalidInput` and no partial result; otherwise the core solver runs on the
working copy of the validated points. -/
def minEnclosingCircle (pts : List RawPoint) : Except MECError CircleQ :=
  if pts.all RawPoint.isFinite then .ok (welzl (pts.map RawPoint.toPointQ))
  else .error .invalidInput

/-- Modelled from the spec: the public binding returns a pair of the center
(as a flat sequence of exactly two coordinates) and the scalar (squared)
radius, as destructured by the example callers. -/
def min_enclosing_circle (pts : List RawPoint) : Except MECError (List ℚ × ℚ) :=
  (minEnclosingCircle pts).map (fun C => ([C.center.1, C.center.2], C.sqRadius))

/-! ## Real-valued minimum-disk theory

The correctness arguments live over ℝ: a generalized circle is a center in
`ℝ × ℝ` together with a squared radius in `ℝ`, and the algorithm's rational
circles are interpreted by coordinatewise casting. -/

/-- Interpretation of an exact point in the real plane. -/
def pR (p : PointQ) : ℝ × ℝ :=
  ((p.1 : ℝ), (p.2 : ℝ))

/-- Squared Euclidean distance in the real plane. -/
def sqDistR (a b : ℝ × ℝ) : ℝ :=
  (a.1 - b.1) ^ 2 + (a.2 - b.2) ^ 2

/-- Center of an algorithm circle, in the real plane. -/
def cR (C : CircleQ) : ℝ × ℝ :=
  pR C.center

/-- Squared radius of an algorithm circle, as a real number. -/
def sR (C : CircleQ) : ℝ :=
  (C.sqRadius : ℝ)

/-- The circle with center `c` and squared radius `s` encloses every point of
the list `S`. -/
def enclosesR (c : ℝ × ℝ) (s : ℝ) (S : List PointQ) : Prop :=
  ∀ x ∈ S, sqDistR c (pR x) ≤ s

/-- Every point of the list `R` lies exactly on the boundary of the circle
with center `c` and squared radius `s`. -/
def onBoundR (c : ℝ × ℝ) (s : ℝ) (R : List PointQ) : Prop :=
  ∀ x ∈ R, sqDistR c (pR x) = s

/-- The circle `(c, s)` is a minimum circle enclosing `S` among all circles
whose boundary passes through every point of `R`. -/
def IsMinDisk (S R : List PointQ) (c : ℝ × ℝ) (s : ℝ) : Prop :=
  enclosesR c s S ∧ onBoundR c s R ∧
    ∀ c2 s2, onBoundR c2 s2 R → enclosesR c2 s2 S → s ≤ s2

/-! ### Basic facts about squared distances and casts -/

theorem sqDistR_nonneg (a b : ℝ × ℝ) : 0 ≤ sqDistR a b := by
  have h1 := sq_nonneg (a.1 - b.1)
  have h2 := sq_nonneg (a.2 - b.2)
  simp only [sqDistR]
  linarith

theorem sqDistR_eq_zero_iff {a b : ℝ × ℝ} : sqDistR a b = 0 ↔ a = b := by
  constructor
  · intro h
    have h1 := sq_nonneg (a.1 - b.1)
    have h2 := sq_nonneg (a.2 - b.2)
    have e1 : (a.1 - b.1) ^ 2 = 0 := by simp only [sqDistR] at h; linarith
    have e2 : (a.2 - b.2) ^ 2 = 0 := by simp only [sqDistR] at h; linarith
    have : a.1 = b.1 := by have := pow_eq_zero_iff (n := 2) (by norm_num) |>.mp e1; linarith
    have : a.2 = b.2 := by have := pow_eq_zero_iff (n := 2) (by norm_num) |>.mp e2; linarith
    exact Prod.ext (by assumption) (by assumption)
  · intro h; subst h; simp [sqDistR]

theorem sqDistQ_cast (a b : PointQ) : ((sqDistQ a b : ℚ) : ℝ) = sqDistR (pR a) (pR b) := by
  simp only [sqDistQ, sqDistR, pR]
  push_cast
  ring

theorem containsQ_true_iff {C : CircleQ} {p : PointQ} :
    containsQ C p = true ↔ sqDistR (cR C) (pR p) ≤ sR C := by
  simp only [containsQ, decide_eq_true_eq, cR, sR]
  rw [← sqDistQ_cast]
  exact_mod_cast Iff.rfl

theorem containsQ_false_iff {C : CircleQ} {p : PointQ} :
    containsQ C p = false ↔ sR C < sqDistR (cR C) (pR p) := by
  rw [← Bool.not_eq_true, not_iff_comm, containsQ_true_iff, not_lt]

/-! ### Plumbing for the enclosing and boundary predicates -/

theorem enclosesR_of_subset {c : ℝ × ℝ} {s : ℝ} {S S' : List PointQ}
    (hsub : ∀ x ∈ S', x ∈ S) (h : enclosesR c s S) : enclosesR c s S' :=
  fun x hx => h x (hsub x hx)

theorem onBoundR_of_subset {c : ℝ × ℝ} {s : ℝ} {R R' : List PointQ}
    (hsub : ∀ x ∈ R', x ∈ R) (h : onBoundR c s R) : onBoundR c s R' :=
  fun x hx => h x (hsub x hx)

theorem IsMinDisk_congr {S S' R R' : List PointQ} {c : ℝ × ℝ} {s : ℝ}
    (hS : ∀ x, x ∈ S ↔ x ∈ S') (hR : ∀ x, x ∈ R ↔ x ∈ R')
    (h : IsMinDisk S R c s) : IsMinDisk S' R' c s := by
  obtain ⟨hE, hB, hM⟩ := h
  refine ⟨fun x hx => hE x ((hS x).mpr hx), fun x hx => hB x ((hR x).mpr hx),
    fun c2 s2 hB2 hE2 => hM c2 s2 ?_ ?_⟩
  · exact fun x hx => hB2 x ((hR x).mp hx)
  · exact fun x hx => hE2 x ((hS x).mp hx)

theorem IsMinDisk.addContained {S R : List PointQ} {c : ℝ × ℝ} {s : ℝ} {r : PointQ}
    (h : IsMinDisk S R c s) (hr : sqDistR c (pR r) ≤ s) : IsMinDisk (r :: S) R c s := by
  obtain ⟨hE, hB, hM⟩ := h
  refine ⟨?_, hB, ?_⟩
  · intro x hx
    rcases List.mem_cons.mp hx with hx | hx
    · subst hx; exact hr
    · exact hE x hx
  · intro c2 s2 hB2 hE2
    exact hM c2 s2 hB2 (enclosesR_of_subset (fun x hx => List.mem_cons_of_mem _ hx) hE2)

/-! ### The interpolation family of circles

For two generalized circles the convex combination of their defining
quadratic functions is again the defining function of a generalized circle;
this family drives every optimality argument below. -/

theorem interp_defining_eq (c0 c1 : ℝ × ℝ) (s0 s1 t : ℝ) (x : ℝ × ℝ) :
    sqDistR ((1 - t) * c0.1 + t * c1.1, (1 - t) * c0.2 + t * c1.2) x -
      ((1 - t) * s0 + t * s1 - t * (1 - t) * sqDistR c0 c1) =
      (1 - t) * (sqDistR c0 x - s0) + t * (sqDistR c1 x - s1) := by
  simp only [sqDistR]
  ring

/-- Key lemma: let `(c0, s0)` be a minimum circle enclosing `S` through `R`,
violated by the point `p`, and let `(c1, s1)` be any circle through `R`
enclosing `S` and containing `p`.  Then some circle through `R` *and through
`p`* encloses `S` with squared radius at most `s1`. -/
theorem exists_through_violator {S R : List PointQ} {c0 : ℝ × ℝ} {s0 : ℝ}
    {c1 : ℝ × ℝ} {s1 : ℝ} {p : PointQ}
    (hmd : IsMinDisk S R c0 s0)
    (hpv : s0 < sqDistR c0 (pR p))
    (h1R : onBoundR c1 s1 R) (h1S : enclosesR c1 s1 S)
    (h1p : sqDistR c1 (pR p) ≤ s1) :
    ∃ c2 s2, onBoundR c2 s2 (p :: R) ∧ enclosesR c2 s2 S ∧ s2 ≤ s1 := by
  obtain ⟨hE0, hB0, hM0⟩ := hmd
  set f0 : ℝ := sqDistR c0 (pR p) - s0 with hf0def
  set f1 : ℝ := sqDistR c1 (pR p) - s1 with hf1def
  have hf0 : 0 < f0 := by simp only [hf0def]; linarith
  have hf1 : f1 ≤ 0 := by simp only [hf1def]; linarith
  have hden : 0 < f0 - f1 := by linarith
  set t : ℝ := f0 / (f0 - f1) with htdef
  have ht0 : 0 < t := div_pos hf0 hden
  have ht1 : t ≤ 1 := by
    rw [htdef, div_le_one hden]
    linarith
  have htm : t * (f0 - f1) = f0 := div_mul_cancel₀ f0 (ne_of_gt hden)
  have hs01 : s0 ≤ s1 := hM0 c1 s1 h1R h1S
  refine ⟨((1 - t) * c0.1 + t * c1.1, (1 - t) * c0.2 + t * c1.2),
    (1 - t) * s0 + t * s1 - t * (1 - t) * sqDistR c0 c1, ?_, ?_, ?_⟩
  · intro x hx
    rcases List.mem_cons.mp hx with hx | hx
    · have h := interp_defining_eq c0 c1 s0 s1 t (pR x)
      have hz : (1 - t) * (sqDistR c0 (pR x) - s0) + t * (sqDistR c1 (pR x) - s1) = 0 := by
        rw [hx, ← hf0def, ← hf1def]
        have he : (1 - t) * f0 + t * f1 = f0 - t * (f0 - f1) := by ring
        rw [he, htm]
        ring
      linarith [h, hz]
    · have h := interp_defining_eq c0 c1 s0 s1 t (pR x)
      have e0 : sqDistR c0 (pR x) - s0 = 0 := by rw [hB0 x hx]; ring
      have e1 : sqDistR c1 (pR x) - s1 = 0 := by rw [h1R x hx]; ring
      rw [e0, e1] at h
      linarith [h]
  · intro x hx
    have h := interp_defining_eq c0 c1 s0 s1 t (pR x)
    have e0 : (1 - t) * (sqDistR c0 (pR x) - s0) ≤ 0 :=
      mul_nonpos_of_nonneg_of_nonpos (by linarith) (by have := hE0 x hx; linarith)
    have e1 : t * (sqDistR c1 (pR x) - s1) ≤ 0 :=
      mul_nonpos_of_nonneg_of_nonpos ht0.le (by have := h1S x hx; linarith)
    linarith [h, e0, e1]
  · have hd : 0 ≤ t * (1 - t) * sqDistR c0 c1 :=
      mul_nonneg (mul_nonneg ht0.le (by linarith)) (sqDistR_nonneg c0 c1)
    have hcvx : (1 - t) * s0 + t * s1 ≤ s1 := by nlinarith [mul_nonneg (by linarith : (0:ℝ) ≤ 1 - t) (by linarith : (0:ℝ) ≤ s1 - s0)]
    linarith

/-- Uniqueness of minimum disks: two minimum circles enclosing `S` through
`R` coincide (both center and squared radius). -/
theorem IsMinDisk.unique {S R : List PointQ} {c0 c1 : ℝ × ℝ} {s0 s1 : ℝ}
    (h0 : IsMinDisk S R c0 s0) (h1 : IsMinDisk S R c1 s1) : c0 = c1 ∧ s0 = s1 := by
  obtain ⟨hE0, hB0, hM0⟩ := h0
  obtain ⟨hE1, hB1, hM1⟩ := h1
  have hs : s0 = s1 := le_antisymm (hM0 c1 s1 hB1 hE1) (hM1 c0 s0 hB0 hE0)
  subst hs
  set c2 : ℝ × ℝ := ((1 - (1:ℝ)/2) * c0.1 + (1:ℝ)/2 * c1.1,
    (1 - (1:ℝ)/2) * c0.2 + (1:ℝ)/2 * c1.2) with hc2def
  set s2 : ℝ := (1 - (1:ℝ)/2) * s0 + (1:ℝ)/2 * s0 - (1:ℝ)/2 * (1 - (1:ℝ)/2) * sqDistR c0 c1
    with hs2def
  have hB2 : onBoundR c2 s2 R := by
    intro x hx
    have h := interp_defining_eq c0 c1 s0 s0 ((1:ℝ)/2) (pR x)
    have e0 : sqDistR c0 (pR x) - s0 = 0 := by rw [hB0 x hx]; ring
    have e1 : sqDistR c1 (pR x) - s0 = 0 := by rw [hB1 x hx]; ring
    rw [e0, e1] at h
    have : sqDistR c2 (pR x) - s2 = 0 := by rw [hc2def, hs2def]; simpa using h
    linarith
  have hE2 : enclosesR c2 s2 S := by
    intro x hx
    have h := interp_defining_eq c0 c1 s0 s0 ((1:ℝ)/2) (pR x)
    have e0 : sqDistR c0 (pR x) - s0 ≤ 0 := by have := hE0 x hx; linarith
    have e1 : sqDistR c1 (pR x) - s0 ≤ 0 := by have := hE1 x hx; linarith
    have : sqDistR c2 (pR x) - s2 ≤ 0 := by rw [hc2def, hs2def]; linarith [h, e0, e1]
    linarith
  have hmin := hM0 c2 s2 hB2 hE2
  have hd : sqDistR c0 c1 ≤ 0 := by rw [hs2def] at hmin; linarith
  have hd0 : sqDistR c0 c1 = 0 := le_antisymm hd (sqDistR_nonneg c0 c1)
  exact ⟨sqDistR_eq_zero_iff.mp hd0, rfl⟩

/-! ### Base cases of the nested scans -/

theorem singleton_encl_min (p : PointQ) : IsMinDisk [p] [] (pR p) 0 := by
  refine ⟨?_, fun x hx => absurd hx (List.not_mem_nil x), ?_⟩
  · intro x hx
    rcases List.mem_singleton.mp hx with rfl
    simp [sqDistR]
  · intro c2 s2 _ hE2
    have := hE2 p (List.mem_singleton_self p)
    have := sqDistR_nonneg c2 (pR p)
    linarith

theorem singleton_bound_min (p : PointQ) : IsMinDisk [] [p] (pR p) 0 := by
  refine ⟨fun x hx => absurd hx (List.not_mem_nil x), ?_, ?_⟩
  · intro x hx
    rcases List.mem_singleton.mp hx with rfl
    simp [sqDistR]
  · intro c2 s2 hB2 _
    have := hB2 p (List.mem_singleton_self p)
    have := sqDistR_nonneg c2 (pR p)
    linarith

theorem point_circle_cR (p : PointQ) : cR ⟨p, 0⟩ = pR p := rfl

theorem point_circle_sR (p : PointQ) : sR ⟨p, 0⟩ = 0 := by simp [sR]

theorem twoPoint_onBound (a b : PointQ) :
    onBoundR (cR (circleFromTwoPoints a b)) (sR (circleFromTwoPoints a b)) [a, b] := by
  intro x hx
  simp only [List.mem_cons, List.mem_singleton, List.not_mem_nil, or_false] at hx
  rcases hx with rfl | rfl <;>
    (simp only [cR, sR, pR, circleFromTwoPoints, sqDistR, sqDistQ]; push_cast; ring)

theorem twoPoint_min (a b : PointQ) :
    IsMinDisk [] [a, b] (cR (circleFromTwoPoints a b)) (sR (circleFromTwoPoints a b)) := by
  refine ⟨fun x hx => absurd hx (List.not_mem_nil x), twoPoint_onBound a b, ?_⟩
  intro c2 s2 hB2 _
  have ha := hB2 a (List.mem_cons_self a [b])
  have hb := hB2 b (List.mem_cons_of_mem a (List.mem_singleton_self b))
  have hgoal : sR (circleFromTwoPoints a b) = sqDistR (pR a) (pR b) / 4 := by
    simp only [sR, circleFromTwoPoints, sqDistQ, sqDistR, pR]
    push_cast
    ring
  rw [hgoal]
  simp only [sqDistR, pR] at ha hb ⊢
  nlinarith [sq_nonneg (2 * c2.1 - (a.1 : ℝ) - (b.1 : ℝ)), sq_nonneg (2 * c2.2 - (a.2 : ℝ) - (b.2 : ℝ)), ha, hb]

/-! ### Feasibility: a circle through an outside point enclosing the prefix -/

theorem cs_two (a1 a2 b1 b2 : ℝ) : (a1 * b1 + a2 * b2) ^ 2 ≤ (a1 ^ 2 + a2 ^ 2) * (b1 ^ 2 + b2 ^ 2) := by
  nlinarith [sq_nonneg (a1 * b2 - a2 * b1)]

theorem sep_pos {c0 P x : ℝ × ℝ} {s0 : ℝ} (hx : sqDistR c0 x ≤ s0) (hv : s0 < sqDistR c0 P) :
    0 < (x.1 - P.1) * (c0.1 - P.1) + (x.2 - P.2) * (c0.2 - P.2) := by
  set A : ℝ := (x.1 - c0.1) * (c0.1 - P.1) + (x.2 - c0.2) * (c0.2 - P.2) with hA
  have hDpos : 0 < sqDistR c0 P := lt_of_le_of_lt (le_trans (sqDistR_nonneg c0 x) hx) hv
  have hcs : A ^ 2 ≤ sqDistR c0 x * sqDistR c0 P := by
    have h := cs_two (x.1 - c0.1) (x.2 - c0.2) (c0.1 - P.1) (c0.2 - P.2)
    rw [hA]
    simp only [sqDistR]
    nlinarith [h]
  have hAD : A ^ 2 < sqDistR c0 P ^ 2 := by
    have h1 : sqDistR c0 x * sqDistR c0 P ≤ s0 * sqDistR c0 P :=
      mul_le_mul_of_nonneg_right hx hDpos.le
    have h2 : s0 * sqDistR c0 P < sqDistR c0 P * sqDistR c0 P :=
      mul_lt_mul_of_pos_right hv hDpos
    nlinarith [hcs]
  have hsum : 0 < A + sqDistR c0 P := by nlinarith [hAD, hDpos]
  have hid : (x.1 - P.1) * (c0.1 - P.1) + (x.2 - P.2) * (c0.2 - P.2) = A + sqDistR c0 P := by
    rw [hA]
    simp only [sqDistR]
    ring
  linarith [hsum, hid.ge, hid.le]

theorem exists_through_outside {c0 : ℝ × ℝ} {s0 : ℝ} {S : List PointQ} {p : PointQ}
    (hE : enclosesR c0 s0 S) (hv : s0 < sqDistR c0 (pR p)) :
    ∃ c1 s1, sqDistR c1 (pR p) = s1 ∧ enclosesR c1 s1 S := by
  set P : ℝ × ℝ := pR p with hPdef
  have key : ∀ l : List PointQ, (∀ x ∈ l, x ∈ S) →
      ∃ t : ℝ, 0 ≤ t ∧ ∀ x ∈ l, sqDistR (pR x) P ≤
        2 * t * (((pR x).1 - P.1) * (c0.1 - P.1) + ((pR x).2 - P.2) * (c0.2 - P.2)) := by
    intro l
    induction l with
    | nil => exact fun _ => ⟨0, le_refl 0, fun x hx => absurd hx (List.not_mem_nil x)⟩
    | cons x l ih =>
      intro hsub
      obtain ⟨t, ht0, ht⟩ := ih (fun y hy => hsub y (List.mem_cons_of_mem x hy))
      have hδx : 0 < ((pR x).1 - P.1) * (c0.1 - P.1) + ((pR x).2 - P.2) * (c0.2 - P.2) :=
        sep_pos (hE x (hsub x (List.mem_cons_self x l))) hv
      set δ : ℝ := ((pR x).1 - P.1) * (c0.1 - P.1) + ((pR x).2 - P.2) * (c0.2 - P.2) with hδ
      refine ⟨max t (sqDistR (pR x) P / (2 * δ)), le_trans ht0 (le_max_left _ _), ?_⟩
      intro y hy
      rcases List.mem_cons.mp hy with rfl | hy
      · have hs : sqDistR (pR y) P / (2 * δ) ≤ max t (sqDistR (pR y) P / (2 * δ)) :=
          le_max_right _ _
        have h2δ : 0 < 2 * δ := by linarith
        rw [div_le_iff₀ h2δ] at hs
        calc sqDistR (pR y) P ≤ max t (sqDistR (pR y) P / (2 * δ)) * (2 * δ) := hs
          _ = 2 * max t (sqDistR (pR y) P / (2 * δ)) * δ := by ring
      · have hδy : 0 < ((pR y).1 - P.1) * (c0.1 - P.1) + ((pR y).2 - P.2) * (c0.2 - P.2) :=
          sep_pos (hE y (hsub y (List.mem_cons_of_mem x hy))) hv
        have := ht y hy
        have httmax : t ≤ max t (sqDistR (pR x) P / (2 * δ)) := le_max_left _ _
        nlinarith [this, hδy, httmax]
  obtain ⟨t, ht0, ht⟩ := key S (fun x hx => hx)
  refine ⟨(P.1 + t * (c0.1 - P.1), P.2 + t * (c0.2 - P.2)), t ^ 2 * sqDistR c0 P, ?_, ?_⟩
  · simp only [sqDistR]
    ring
  · intro x hx
    have hid : sqDistR (P.1 + t * (c0.1 - P.1), P.2 + t * (c0.2 - P.2)) (pR x) =
        sqDistR (pR x) P -
          2 * t * (((pR x).1 - P.1) * (c0.1 - P.1) + ((pR x).2 - P.2) * (c0.2 - P.2)) +
          t ^ 2 * sqDistR c0 P := by
      simp only [sqDistR]
      ring
    have := ht x hx
    linarith [hid.le, hid.ge]

/-! ### The circumcircle: correctness of the determinant formula, uniqueness
of the circle through three non-collinear points, and non-degeneracy of
concyclic triples of distinct points -/

theorem circum_dist_b {a b c : PointQ} (hd : circumDet a b c ≠ 0) :
    sqDistQ (circumCenter a b c) b = sqDistQ (circumCenter a b c) a := by
  have h : circumDet a b c ≠ 0 := hd
  simp only [circumDet] at h
  simp only [circumCenter, circumDet, sqDistQ]
  field_simp
  ring

theorem circum_dist_c {a b c : PointQ} (hd : circumDet a b c ≠ 0) :
    sqDistQ (circumCenter a b c) c = sqDistQ (circumCenter a b c) a := by
  have h : circumDet a b c ≠ 0 := hd
  simp only [circumDet] at h
  simp only [circumCenter, circumDet, sqDistQ]
  field_simp
  ring

theorem circum_onBound {a b c : PointQ} {D : CircleQ}
    (h : circleFromThreePoints a b c = some D) :
    circumDet a b c ≠ 0 ∧ onBoundR (cR D) (sR D) [a, b, c] := by
  by_cases hd : circumDet a b c = 0
  · simp [circleFromThreePoints, hd] at h
  · refine ⟨hd, ?_⟩
    have hD : D = ⟨circumCenter a b c, sqDistQ (circumCenter a b c) a⟩ := by
      have hh := h
      simp only [circleFromThreePoints, hd, if_false] at hh
      exact (Option.some_inj.mp hh).symm
    subst hD
    intro x hx
    simp only [List.mem_cons, List.mem_singleton, List.not_mem_nil, or_false] at hx
    rcases hx with rfl | rfl | rfl
    · simp only [cR, sR]
      rw [← sqDistQ_cast]
    · simp only [cR, sR]
      rw [← sqDistQ_cast]
      exact_mod_cast circum_dist_b hd
    · simp only [cR, sR]
      rw [← sqDistQ_cast]
      exact_mod_cast circum_dist_c hd

theorem concyclic_unique_aux {A1 A2 B1 B2 C1 C2 x1 x2 y1 y2 s t : ℝ}
    (hdet : (B1 - A1) * (C2 - A2) - (B2 - A2) * (C1 - A1) ≠ 0)
    (hxA : (x1 - A1) ^ 2 + (x2 - A2) ^ 2 = s) (hxB : (x1 - B1) ^ 2 + (x2 - B2) ^ 2 = s)
    (hxC : (x1 - C1) ^ 2 + (x2 - C2) ^ 2 = s)
    (hyA : (y1 - A1) ^ 2 + (y2 - A2) ^ 2 = t) (hyB : (y1 - B1) ^ 2 + (y2 - B2) ^ 2 = t)
    (hyC : (y1 - C1) ^ 2 + (y2 - C2) ^ 2 = t) :
    x1 = y1 ∧ x2 = y2 ∧ s = t := by
  have h1 : (x1 - y1) * (B1 - A1) + (x2 - y2) * (B2 - A2) = 0 := by
    linear_combination (hxA - hxB - hyA + hyB) / 2
  have h2 : (x1 - y1) * (C1 - A1) + (x2 - y2) * (C2 - A2) = 0 := by
    linear_combination (hxA - hxC - hyA + hyC) / 2
  have hu : (x1 - y1) * ((B1 - A1) * (C2 - A2) - (B2 - A2) * (C1 - A1)) = 0 := by
    linear_combination (C2 - A2) * h1 - (B2 - A2) * h2
  have hv : (x2 - y2) * ((B1 - A1) * (C2 - A2) - (B2 - A2) * (C1 - A1)) = 0 := by
    linear_combination (B1 - A1) * h2 - (C1 - A1) * h1
  have hx1 : x1 = y1 := by
    rcases mul_eq_zero.mp hu with h | h
    · linarith
    · exact absurd h hdet
  have hx2 : x2 = y2 := by
    rcases mul_eq_zero.mp hv with h | h
    · linarith
    · exact absurd h hdet
  refine ⟨hx1, hx2, ?_⟩
  rw [hx1, hx2] at hxA
  linarith [hxA, hyA]

theorem circumDet_cast (a b c : PointQ) :
    ((circumDet a b c : ℚ) : ℝ) =
      2 * ((((b.1 : ℝ) - (a.1 : ℝ)) * ((c.2 : ℝ) - (a.2 : ℝ))) -
        (((b.2 : ℝ) - (a.2 : ℝ)) * ((c.1 : ℝ) - (a.1 : ℝ)))) := by
  simp only [circumDet]
  push_cast
  ring

theorem concyclic_unique {a b c : PointQ} {x y : ℝ × ℝ} {s t : ℝ}
    (hd : circumDet a b c ≠ 0)
    (hx : onBoundR x s [a, b, c]) (hy : onBoundR y t [a, b, c]) : x = y ∧ s = t := by
  have hdR : ((circumDet a b c : ℚ) : ℝ) ≠ 0 := by exact_mod_cast hd
  rw [circumDet_cast] at hdR
  have hdet : (((b.1 : ℝ) - (a.1 : ℝ)) * ((c.2 : ℝ) - (a.2 : ℝ))) -
      (((b.2 : ℝ) - (a.2 : ℝ)) * ((c.1 : ℝ) - (a.1 : ℝ))) ≠ 0 := by
    intro h0
    exact hdR (by rw [h0]; ring)
  have hxa := hx a (by simp)
  have hxb := hx b (by simp)
  have hxc := hx c (by simp)
  have hya := hy a (by simp)
  have hyb := hy b (by simp)
  have hyc := hy c (by simp)
  simp only [sqDistR, pR] at hxa hxb hxc hya hyb hyc
  obtain ⟨h1, h2, h3⟩ := concyclic_unique_aux hdet hxa hxb hxc hya hyb hyc
  exact ⟨Prod.ext h1 h2, h3⟩

theorem collinear_concyclic_aux {A1 A2 B1 B2 C1 C2 x1 x2 s : ℝ}
    (hdet : (B1 - A1) * (C2 - A2) - (B2 - A2) * (C1 - A1) = 0)
    (hA : (x1 - A1) ^ 2 + (x2 - A2) ^ 2 = s) (hB : (x1 - B1) ^ 2 + (x2 - B2) ^ 2 = s)
    (hC : (x1 - C1) ^ 2 + (x2 - C2) ^ 2 = s) :
    (A1 = B1 ∧ A2 = B2) ∨ (C1 = A1 ∧ C2 = A2) ∨ (C1 = B1 ∧ C2 = B2) := by
  by_cases hAB : A1 = B1 ∧ A2 = B2
  · exact Or.inl hAB
  have hBA : B1 - A1 ≠ 0 ∨ B2 - A2 ≠ 0 := by
    by_contra hcon
    push_neg at hcon
    exact hAB ⟨by linarith [hcon.1], by linarith [hcon.2]⟩
  obtain ⟨k, hk1, hk2⟩ : ∃ k : ℝ, C1 - A1 = k * (B1 - A1) ∧ C2 - A2 = k * (B2 - A2) := by
    rcases hBA with hne | hne
    · refine ⟨(C1 - A1) / (B1 - A1), ?_, ?_⟩
      · field_simp
      · field_simp
        linear_combination hdet
    · refine ⟨(C2 - A2) / (B2 - A2), ?_, ?_⟩
      · field_simp
        linear_combination -hdet
      · field_simp
  have hC1 : C1 = A1 + k * (B1 - A1) := by linarith
  have hC2 : C2 = A2 + k * (B2 - A2) := by linarith
  subst hC1
  subst hC2
  have hq : k * (k - 1) * ((B1 - A1) ^ 2 + (B2 - A2) ^ 2) = 0 := by
    linear_combination hC - hA - k * hB + k * hA
  rcases mul_eq_zero.mp hq with hk | hz
  · rcases mul_eq_zero.mp hk with hk0 | hk1'
    · refine Or.inr (Or.inl ⟨?_, ?_⟩) <;> (rw [hk0]; ring)
    · have hk1'' : k = 1 := by linarith
      refine Or.inr (Or.inr ⟨?_, ?_⟩) <;> (rw [hk1'']; ring)
  · have hz1 : B1 - A1 = 0 := by nlinarith [sq_nonneg (B1 - A1), sq_nonneg (B2 - A2)]
    have hz2 : B2 - A2 = 0 := by nlinarith [sq_nonneg (B1 - A1), sq_nonneg (B2 - A2)]
    exact absurd ⟨by linarith, by linarith⟩ hAB

theorem concyclic_det_ne_zero {a b c : PointQ} {x : ℝ × ℝ} {s : ℝ}
    (hB : onBoundR x s [a, b, c])
    (hab : pR a ≠ pR b) (hac : pR a ≠ pR c) (hbc : pR b ≠ pR c) :
    circumDet a b c ≠ 0 := by
  intro h0
  have h0R : ((circumDet a b c : ℚ) : ℝ) = 0 := by exact_mod_cast h0
  rw [circumDet_cast] at h0R
  have hdet : (((b.1 : ℝ) - (a.1 : ℝ)) * ((c.2 : ℝ) - (a.2 : ℝ))) -
      (((b.2 : ℝ) - (a.2 : ℝ)) * ((c.1 : ℝ) - (a.1 : ℝ))) = 0 := by linarith
  have hxa := hB a (by simp)
  have hxb := hB b (by simp)
  have hxc := hB c (by simp)
  simp only [sqDistR, pR] at hxa hxb hxc
  rcases collinear_concyclic_aux hdet hxa hxb hxc with h | h | h
  · exact hab (Prod.ext h.1 h.2)
  · exact hac (Prod.ext h.1.symm h.2.symm)
  · exact hbc (Prod.ext h.1.symm h.2.symm)

/-! ### Loop invariants of the three nested scans -/

theorem ne_of_violation {c : ℝ × ℝ} {s : ℝ} {p q : PointQ}
    (hp : sqDistR c (pR p) = s) (hq : s < sqDistR c (pR q)) : pR q ≠ pR p := by
  intro h
  rw [h, hp] at hq
  exact lt_irrefl _ hq

theorem mem_middle_iff {α : Type} (r : α) (rest seen : List α) :
    ∀ x, x ∈ rest ++ r :: seen ↔ x ∈ (r :: rest) ++ seen := by
  intro x
  simp only [List.mem_append, List.mem_cons]
  tauto

theorem innerScan_spec (p q : PointQ) (hpq : pR p ≠ pR q) :
    ∀ (todo seen : List PointQ) (C : CircleQ),
      IsMinDisk seen [p, q] (cR C) (sR C) →
      (∃ cf sf, onBoundR cf sf [p, q] ∧ enclosesR cf sf seen ∧ enclosesR cf sf todo) →
      IsMinDisk (todo ++ seen) [p, q] (cR (innerScan p q C todo)) (sR (innerScan p q C todo)) := by
  intro todo
  induction todo with
  | nil => intro seen C hmd _; simpa [innerScan] using hmd
  | cons r rest ih =>
    intro seen C hmd hfeas
    obtain ⟨cf, sf, hfB, hfS, hfT⟩ := hfeas
    have hstep : innerScan p q C (r :: rest) =
        if containsQ C r then innerScan p q C rest
        else innerScan p q (circleFromThreePointsSafe p q r) rest := rfl
    by_cases hc : containsQ C r = true
    · rw [hstep, if_pos hc]
      have hmd' : IsMinDisk (r :: seen) [p, q] (cR C) (sR C) :=
        hmd.addContained (containsQ_true_iff.mp hc)
      have hres := ih (r :: seen) C hmd'
        ⟨cf, sf, hfB, ?_, fun x hx => hfT x (List.mem_cons_of_mem r hx)⟩
      · exact IsMinDisk_congr (mem_middle_iff r rest seen) (fun x => Iff.rfl) hres
      · intro x hx
        rcases List.mem_cons.mp hx with rfl | hx
        · exact hfT x (List.mem_cons_self x rest)
        · exact hfS x hx
    · have hcf : containsQ C r = false := by simpa using hc
      rw [hstep, if_neg hc]
      have hv : sR C < sqDistR (cR C) (pR r) := containsQ_false_iff.mp hcf
      have hrp : pR r ≠ pR p := ne_of_violation (hmd.2.1 p (by simp)) hv
      have hrq : pR r ≠ pR q := ne_of_violation (hmd.2.1 q (by simp)) hv
      have hrin : sqDistR cf (pR r) ≤ sf := hfT r (List.mem_cons_self r rest)
      obtain ⟨c2, s2, hB2, hE2, hs2⟩ := exists_through_violator hmd hv hfB hfS hrin
      have hB2' : onBoundR c2 s2 [p, q, r] :=
        onBoundR_of_subset (fun x hx => by simp only [List.mem_cons] at hx ⊢; tauto) hB2
      have hdet : circumDet p q r ≠ 0 :=
        concyclic_det_ne_zero hB2' hpq hrp.symm hrq.symm
      have hsome : circleFromThreePoints p q r =
          some ⟨circumCenter p q r, sqDistQ (circumCenter p q r) p⟩ := by
        simp [circleFromThreePoints, hdet]
      have hsafe : circleFromThreePointsSafe p q r =
          ⟨circumCenter p q r, sqDistQ (circumCenter p q r) p⟩ := by
        simp [circleFromThreePointsSafe, hsome]
      set D : CircleQ := ⟨circumCenter p q r, sqDistQ (circumCenter p q r) p⟩ with hDdef
      have hDB : onBoundR (cR D) (sR D) [p, q, r] := (circum_onBound hsome).2
      have hDeq : cR D = c2 ∧ sR D = s2 := concyclic_unique hdet hDB hB2'
      have hmdD : IsMinDisk (r :: seen) [p, q] (cR D) (sR D) := by
        refine ⟨?_, ?_, ?_⟩
        · intro x hx
          rcases List.mem_cons.mp hx with rfl | hx
          · exact le_of_eq (hDB x (by simp))
          · rw [hDeq.1, hDeq.2]
            exact hE2 x hx
        · exact onBoundR_of_subset (fun x hx => by simp only [List.mem_cons] at hx ⊢; tauto) hDB
        · intro c3 s3 hB3 hE3
          obtain ⟨c4, s4, hB4, hE4, hs4⟩ := exists_through_violator hmd hv hB3
            (fun x hx => hE3 x (List.mem_cons_of_mem r hx))
            (hE3 r (List.mem_cons_self r seen))
          have hB4' : onBoundR c4 s4 [p, q, r] :=
            onBoundR_of_subset (fun x hx => by simp only [List.mem_cons] at hx ⊢; tauto) hB4
          have := concyclic_unique hdet hDB hB4'
          rw [this.2]
          exact hs4
      rw [hsafe]
      have hres := ih (r :: seen) D hmdD
        ⟨cf, sf, hfB, ?_, fun x hx => hfT x (List.mem_cons_of_mem r hx)⟩
      · exact IsMinDisk_congr (mem_middle_iff r rest seen) (fun x => Iff.rfl) hres
      · intro x hx
        rcases List.mem_cons.mp hx with rfl | hx
        · exact hfT x (List.mem_cons_self x rest)
        · exact hfS x hx

theorem middleScan_spec (p : PointQ) :
    ∀ (todo seen : List PointQ) (C : CircleQ),
      IsMinDisk seen [p] (cR C) (sR C) →
      (∃ cf sf, onBoundR cf sf [p] ∧ enclosesR cf sf seen ∧ enclosesR cf sf todo) →
      IsMinDisk (todo ++ seen) [p]
        (cR (middleScan p seen C todo)) (sR (middleScan p seen C todo)) := by
  intro todo
  induction todo with
  | nil => intro seen C hmd _; simpa [middleScan] using hmd
  | cons q rest ih =>
    intro seen C hmd hfeas
    obtain ⟨cf, sf, hfB, hfS, hfT⟩ := hfeas
    have hstep : middleScan p seen C (q :: rest) =
        if containsQ C q then middleScan p (q :: seen) C rest
        else middleScan p (q :: seen) (innerScan p q (circleFromTwoPoints p q) seen) rest := rfl
    by_cases hc : containsQ C q = true
    · rw [hstep, if_pos hc]
      have hmd' : IsMinDisk (q :: seen) [p] (cR C) (sR C) :=
        hmd.addContained (containsQ_true_iff.mp hc)
      have hres := ih (q :: seen) C hmd'
        ⟨cf, sf, hfB, ?_, fun x hx => hfT x (List.mem_cons_of_mem q hx)⟩
      · exact IsMinDisk_congr (mem_middle_iff q rest seen) (fun x => Iff.rfl) hres
      · intro x hx
        rcases List.mem_cons.mp hx with rfl | hx
        · exact hfT x (List.mem_cons_self x rest)
        · exact hfS x hx
    · have hcf : containsQ C q = false := by simpa using hc
      rw [hstep, if_neg hc]
      have hv : sR C < sqDistR (cR C) (pR q) := containsQ_false_iff.mp hcf
      have hqp : pR q ≠ pR p := ne_of_violation (hmd.2.1 p (by simp)) hv
      have hqin : sqDistR cf (pR q) ≤ sf := hfT q (List.mem_cons_self q rest)
      obtain ⟨c2, s2, hB2, hE2, hs2⟩ := exists_through_violator hmd hv hfB hfS hqin
      have hB2' : onBoundR c2 s2 [p, q] :=
        onBoundR_of_subset (fun x hx => by simp only [List.mem_cons] at hx ⊢; tauto) hB2
      have hmd0 : IsMinDisk [] [p, q]
          (cR (circleFromTwoPoints p q)) (sR (circleFromTwoPoints p q)) := twoPoint_min p q
      have hinner := innerScan_spec p q hqp.symm seen [] (circleFromTwoPoints p q) hmd0
        ⟨c2, s2, hB2', fun x hx => absurd hx (List.not_mem_nil x), hE2⟩
      set D : CircleQ := innerScan p q (circleFromTwoPoints p q) seen with hDdef
      rw [List.append_nil] at hinner
      have hmdD : IsMinDisk (q :: seen) [p] (cR D) (sR D) := by
        refine ⟨?_, ?_, ?_⟩
        · intro x hx
          rcases List.mem_cons.mp hx with rfl | hx
          · exact le_of_eq (hinner.2.1 x (by simp))
          · exact hinner.1 x hx
        · exact onBoundR_of_subset (fun x hx => by simp only [List.mem_cons] at hx ⊢; tauto)
            hinner.2.1
        · intro c3 s3 hB3 hE3
          obtain ⟨c4, s4, hB4, hE4, hs4⟩ := exists_through_violator hmd hv hB3
            (fun x hx => hE3 x (List.mem_cons_of_mem q hx))
            (hE3 q (List.mem_cons_self q seen))
          have hB4' : onBoundR c4 s4 [p, q] :=
            onBoundR_of_subset (fun x hx => by simp only [List.mem_cons] at hx ⊢; tauto) hB4
          exact le_trans (hinner.2.2 c4 s4 hB4' hE4) hs4
      have hres := ih (q :: seen) D hmdD
        ⟨cf, sf, hfB, ?_, fun x hx => hfT x (List.mem_cons_of_mem q hx)⟩
      · exact IsMinDisk_congr (mem_middle_iff q rest seen) (fun x => Iff.rfl) hres
      · intro x hx
        rcases List.mem_cons.mp hx with rfl | hx
        · exact hfT x (List.mem_cons_self x rest)
        · exact hfS x hx

theorem outerScan_spec :
    ∀ (todo done : List PointQ) (C : CircleQ),
      IsMinDisk done [] (cR C) (sR C) →
      IsMinDisk (todo ++ done) []
        (cR (outerScan done C todo)) (sR (outerScan done C todo)) := by
  intro todo
  induction todo with
  | nil => intro done C hmd; simpa [outerScan] using hmd
  | cons p rest ih =>
    intro done C hmd
    have hstep : outerScan done C (p :: rest) =
        if containsQ C p then outerScan (p :: done) C rest
        else outerScan (p :: done) (middleScan p [] ⟨p, 0⟩ done) rest := rfl
    by_cases hc : containsQ C p = true
    · rw [hstep, if_pos hc]
      have hmd' : IsMinDisk (p :: done) [] (cR C) (sR C) :=
        hmd.addContained (containsQ_true_iff.mp hc)
      exact IsMinDisk_congr (mem_middle_iff p rest done) (fun x => Iff.rfl)
        (ih (p :: done) C hmd')
    · have hcf : containsQ C p = false := by simpa using hc
      rw [hstep, if_neg hc]
      have hv : sR C < sqDistR (cR C) (pR p) := containsQ_false_iff.mp hcf
      obtain ⟨c1, s1, h1p, h1S⟩ := exists_through_outside hmd.1 hv
      have hmd0 : IsMinDisk [] [p] (cR ⟨p, 0⟩) (sR ⟨p, 0⟩) := by
        rw [point_circle_cR, point_circle_sR]
        exact singleton_bound_min p
      have h1B : onBoundR c1 s1 [p] := by
        intro x hx
        rcases List.mem_singleton.mp hx with rfl
        exact h1p
      have hmiddle := middleScan_spec p done [] ⟨p, 0⟩ hmd0
        ⟨c1, s1, h1B, fun x hx => absurd hx (List.not_mem_nil x), h1S⟩
      set D : CircleQ := middleScan p [] ⟨p, 0⟩ done with hDdef
      rw [List.append_nil] at hmiddle
      have hmdD : IsMinDisk (p :: done) [] (cR D) (sR D) := by
        refine ⟨?_, ?_, ?_⟩
        · intro x hx
          rcases List.mem_cons.mp hx with rfl | hx
          · exact le_of_eq (hmiddle.2.1 x (by simp))
          · exact hmiddle.1 x hx
        · exact fun x hx => absurd hx (List.not_mem_nil x)
        · intro c3 s3 _ hE3
          obtain ⟨c4, s4, hB4, hE4, hs4⟩ := exists_through_violator hmd hv
            (fun x hx => absurd hx (List.not_mem_nil x))
            (fun x hx => hE3 x (List.mem_cons_of_mem p hx))
            (hE3 p (List.mem_cons_self p done))
          have hB4' : onBoundR c4 s4 [p] :=
            onBoundR_of_subset (fun x hx => by simp only [List.mem_cons] at hx ⊢; tauto) hB4
          exact le_trans (hmiddle.2.2 c4 s4 hB4' hE4) hs4
      exact IsMinDisk_congr (mem_middle_iff p rest done) (fun x => Iff.rfl)
        (ih (p :: done) D hmdD)

/-- Main invariant: on any nonempty validated input the core solver returns a
minimum enclosing circle of the input points. -/
theorem welzl_isMinDisk (pts : List PointQ) (hne : pts ≠ []) :
    IsMinDisk pts [] (cR (welzl pts)) (sR (welzl pts)) := by
  match pts with
  | [] => exact absurd rfl hne
  | p :: rest =>
    have hbase : IsMinDisk [p] [] (cR ⟨p, 0⟩) (sR ⟨p, 0⟩) := by
      rw [point_circle_cR, point_circle_sR]
      exact singleton_encl_min p
    have h := outerScan_spec rest [p] ⟨p, 0⟩ hbase
    have hwe : welzl (p :: rest) = outerScan [p] ⟨p, 0⟩ rest := rfl
    rw [hwe]
    refine IsMinDisk_congr (fun x => ?_) (fun x => Iff.rfl) h
    simp only [List.mem_append, List.mem_cons, List.mem_singleton, List.not_mem_nil, or_false]
    tauto

/-! ### Consequences: uniqueness-based congruence and non-negativity -/

theorem pR_injective : Function.Injective pR := by
  intro a b h
  have h1 : ((a.1 : ℝ)) = (b.1 : ℝ) := congrArg Prod.fst h
  have h2 : ((a.2 : ℝ)) = (b.2 : ℝ) := congrArg Prod.snd h
  exact Prod.ext (by exact_mod_cast h1) (by exact_mod_cast h2)

theorem circleQ_eq_of_cast {C D : CircleQ} (hc : cR C = cR D) (hs : sR C = sR D) : C = D := by
  obtain ⟨cc, cs⟩ := C
  obtain ⟨dc, ds⟩ := D
  simp only [cR] at hc
  simp only [sR] at hs
  have h1 : cc = dc := pR_injective hc
  have h2 : cs = ds := by exact_mod_cast hs
  rw [h1, h2]

theorem welzl_members_eq {l l' : List PointQ} (h : ∀ x, x ∈ l ↔ x ∈ l') :
    welzl l = welzl l' := by
  rcases hl : l with _ | ⟨x, xs⟩
  · rcases hl' : l' with _ | ⟨y, ys⟩
    · rfl
    · exfalso
      have := (h y).mpr (by rw [hl']; exact List.mem_cons_self y ys)
      rw [hl] at this
      exact List.not_mem_nil y this
  · have hne : l ≠ [] := by rw [hl]; exact List.cons_ne_nil x xs
    have hne' : l' ≠ [] := by
      intro h0
      have := (h x).mp (by rw [hl]; exact List.mem_cons_self x xs)
      rw [h0] at this
      exact List.not_mem_nil x this
    rw [← hl]
    have h1 := welzl_isMinDisk l hne
    have h2 := welzl_isMinDisk l' hne'
    have h1' : IsMinDisk l' [] (cR (welzl l)) (sR (welzl l)) :=
      IsMinDisk_congr h (fun x => Iff.rfl) h1
    obtain ⟨hc, hs⟩ := h1'.unique h2
    exact circleQ_eq_of_cast hc hs

theorem welzl_sqRadius_nonneg {pts : List PointQ} (hne : pts ≠ []) :
    0 ≤ (welzl pts).sqRadius := by
  obtain ⟨p, rest, rfl⟩ := List.exists_cons_of_ne_nil hne
  have hmd := welzl_isMinDisk (p :: rest) hne
  have hE := hmd.1 p (List.mem_cons_self p rest)
  have h0 := sqDistR_nonneg (cR (welzl (p :: rest))) (pR p)
  have hfin : (0 : ℝ) ≤ sR (welzl (p :: rest)) := le_trans h0 hE
  simp only [sR] at hfin
  exact_mod_cast hfin

/-! ### The trivial-case solver on three points -/

theorem containsQ_two_iff {a b c : PointQ} :
    containsQ (circleFromTwoPoints a b) c = true ↔
      sqDistQ ((a.1 + b.1) / 2, (a.2 + b.2) / 2) c ≤ sqDistQ a b / 4 := by
  simp [containsQ, circleFromTwoPoints]

theorem collinear_some_diam {a b c : PointQ} (hdet : circumDet a b c = 0) :
    containsQ (circleFromTwoPoints a b) c = true ∨
      containsQ (circleFromTwoPoints a c) b = true ∨
      containsQ (circleFromTwoPoints b c) a = true := by
  by_cases hab : a = b
  · right; left
    rw [containsQ_two_iff, hab]
    simp only [sqDistQ]
    nlinarith [sq_nonneg (b.1 - c.1), sq_nonneg (b.2 - c.2)]
  · have hBA : b.1 - a.1 ≠ 0 ∨ b.2 - a.2 ≠ 0 := by
      by_contra hcon
      push_neg at hcon
      exact hab (Prod.ext (by linarith [hcon.1]) (by linarith [hcon.2]))
    have hdet' : (b.1 - a.1) * (c.2 - a.2) - (b.2 - a.2) * (c.1 - a.1) = 0 := by
      simp only [circumDet] at hdet
      linarith [hdet]
    obtain ⟨k, hk1, hk2⟩ : ∃ k : ℚ, c.1 - a.1 = k * (b.1 - a.1) ∧ c.2 - a.2 = k * (b.2 - a.2) := by
      rcases hBA with hne | hne
      · refine ⟨(c.1 - a.1) / (b.1 - a.1), ?_, ?_⟩
        · field_simp
        · field_simp
          linear_combination hdet'
      · refine ⟨(c.2 - a.2) / (b.2 - a.2), ?_, ?_⟩
        · field_simp
          linear_combination -hdet'
        · field_simp
    have hc1 : c.1 = a.1 + k * (b.1 - a.1) := by linarith
    have hc2 : c.2 = a.2 + k * (b.2 - a.2) := by linarith
    have hDnn : (0 : ℚ) ≤ (b.1 - a.1) ^ 2 + (b.2 - a.2) ^ 2 :=
      add_nonneg (sq_nonneg _) (sq_nonneg _)
    rcases lt_or_le k 0 with hk | hk
    · right; right
      rw [containsQ_two_iff]
      simp only [sqDistQ]
      rw [hc1, hc2]
      nlinarith [mul_nonneg (by linarith : (0:ℚ) ≤ -k) hDnn]
    · rcases le_or_lt k 1 with hk1' | hk1'
      · left
        rw [containsQ_two_iff]
        simp only [sqDistQ]
        rw [hc1, hc2]
        nlinarith [mul_nonneg (mul_nonneg hk (sub_nonneg.mpr hk1')) hDnn]
      · right; left
        rw [containsQ_two_iff]
        simp only [sqDistQ]
        rw [hc1, hc2]
        nlinarith [mul_nonneg (by linarith : (0:ℚ) ≤ k - 1) hDnn]

/-! ### Brute-force candidate circles (the minimality oracle of the spec) -/

/-- Modelled from the spec: the brute-force candidate set — every circle built
from a pair (diameter circle) or a triple (circumcircle) of input points. -/
def candidateCircles (pts : List PointQ) : List CircleQ :=
  (pts.flatMap fun a => pts.map fun b => circleFromTwoPoints a b) ++
    (pts.flatMap fun a => pts.flatMap fun b => pts.filterMap fun c =>
      circleFromThreePoints a b c)

/-- Modelled from the spec: the candidates that actually enclose every input
point (the valid candidates of testable property 2). -/
def validCandidates (pts : List PointQ) : List CircleQ :=
  (candidateCircles pts).filter fun C => pts.all (containsQ C)

theorem two_mem_candidates {pts : List PointQ} {a b : PointQ}
    (ha : a ∈ pts) (hb : b ∈ pts) : circleFromTwoPoints a b ∈ candidateCircles pts := by
  apply List.mem_append_left
  rw [List.mem_flatMap]
  exact ⟨a, ha, List.mem_map_of_mem _ hb⟩

theorem three_mem_candidates {pts : List PointQ} {a b c : PointQ} {D : CircleQ}
    (ha : a ∈ pts) (hb : b ∈ pts) (hc : c ∈ pts)
    (h : circleFromThreePoints a b c = some D) : D ∈ candidateCircles pts := by
  apply List.mem_append_right
  rw [List.mem_flatMap]
  refine ⟨a, ha, ?_⟩
  rw [List.mem_flatMap]
  refine ⟨b, hb, ?_⟩
  rw [List.mem_filterMap]
  exact ⟨c, hc, h⟩

theorem point_circle_eq_two (p : PointQ) : (⟨p, 0⟩ : CircleQ) = circleFromTwoPoints p p := by
  simp only [circleFromTwoPoints, sqDistQ]
  have h1 : (p.1 + p.1) / 2 = p.1 := by ring
  have h2 : (p.2 + p.2) / 2 = p.2 := by ring
  have h3 : ((p.1 - p.1) ^ 2 + (p.2 - p.2) ^ 2) / 4 = 0 := by ring
  rw [h1, h2, h3]

/-- Every circle the solver can produce is built from one or two input points
(a diameter circle) or from three input points (a circumcircle). -/
def OutputShape (pts : List PointQ) (C : CircleQ) : Prop :=
  (∃ a ∈ pts, ∃ b ∈ pts, C = circleFromTwoPoints a b) ∨
    (∃ a ∈ pts, ∃ b ∈ pts, ∃ c ∈ pts, circleFromThreePoints a b c = some C)

theorem safe_shape {pts : List PointQ} {p q r : PointQ}
    (hp : p ∈ pts) (hq : q ∈ pts) (hr : r ∈ pts) :
    OutputShape pts (circleFromThreePointsSafe p q r) := by
  unfold circleFromThreePointsSafe
  rcases hcase : circleFromThreePoints p q r with _ | D
  · rw [Option.getD_none]
    split_ifs with h1 h2
    · exact Or.inl ⟨p, hp, q, hq, rfl⟩
    · exact Or.inl ⟨p, hp, r, hr, rfl⟩
    · exact Or.inl ⟨q, hq, r, hr, rfl⟩
  · rw [Option.getD_some]
    exact Or.inr ⟨p, hp, q, hq, r, hr, hcase⟩

theorem innerScan_shape {pts : List PointQ} {p q : PointQ}
    (hp : p ∈ pts) (hq : q ∈ pts) :
    ∀ (todo : List PointQ) (C : CircleQ), (∀ x ∈ todo, x ∈ pts) →
      OutputShape pts C → OutputShape pts (innerScan p q C todo) := by
  intro todo
  induction todo with
  | nil => intro C _ hC; exact hC
  | cons r rest ih =>
    intro C hsub hC
    have hstep : innerScan p q C (r :: rest) =
        if containsQ C r then innerScan p q C rest
        else innerScan p q (circleFromThreePointsSafe p q r) rest := rfl
    rw [hstep]
    split_ifs
    · exact ih C (fun x hx => hsub x (List.mem_cons_of_mem r hx)) hC
    · exact ih (circleFromThreePointsSafe p q r)
        (fun x hx => hsub x (List.mem_cons_of_mem r hx))
        (safe_shape hp hq (hsub r (List.mem_cons_self r rest)))

theorem middleScan_shape {pts : List PointQ} {p : PointQ} (hp : p ∈ pts) :
    ∀ (todo seen : List PointQ) (C : CircleQ), (∀ x ∈ todo, x ∈ pts) →
      (∀ x ∈ seen, x ∈ pts) →
      OutputShape pts C → OutputShape pts (middleScan p seen C todo) := by
  intro todo
  induction todo with
  | nil => intro seen C _ _ hC; exact hC
  | cons q rest ih =>
    intro seen C hsub hseen hC
    have hqin : q ∈ pts := hsub q (List.mem_cons_self q rest)
    have hsub' : ∀ x ∈ rest, x ∈ pts := fun x hx => hsub x (List.mem_cons_of_mem q hx)
    have hseen' : ∀ x ∈ q :: seen, x ∈ pts := by
      intro x hx
      rcases List.mem_cons.mp hx with rfl | hx
      · exact hqin
      · exact hseen x hx
    have hstep : middleScan p seen C (q :: rest) =
        if containsQ C q then middleScan p (q :: seen) C rest
        else middleScan p (q :: seen) (innerScan p q (circleFromTwoPoints p q) seen) rest := rfl
    rw [hstep]
    split_ifs
    · exact ih (q :: seen) C hsub' hseen' hC
    · exact ih (q :: seen) _ hsub' hseen'
        (innerScan_shape hp hqin seen (circleFromTwoPoints p q) hseen
          (Or.inl ⟨p, hp, q, hqin, rfl⟩))

theorem outerScan_shape {pts : List PointQ} :
    ∀ (todo done : List PointQ) (C : CircleQ), (∀ x ∈ todo, x ∈ pts) →
      (∀ x ∈ done, x ∈ pts) → OutputShape pts C →
      OutputShape pts (outerScan done C todo) := by
  intro todo
  induction todo with
  | nil => intro done C _ _ hC; exact hC
  | cons p rest ih =>
    intro done C hsub hdone hC
    have hpin : p ∈ pts := hsub p (List.mem_cons_self p rest)
    have hsub' : ∀ x ∈ rest, x ∈ pts := fun x hx => hsub x (List.mem_cons_of_mem p hx)
    have hdone' : ∀ x ∈ p :: done, x ∈ pts := by
      intro x hx
      rcases List.mem_cons.mp hx with rfl | hx
      · exact hpin
      · exact hdone x hx
    have hstep : outerScan done C (p :: rest) =
        if containsQ C p then outerScan (p :: done) C rest
        else outerScan (p :: done) (middleScan p [] ⟨p, 0⟩ done) rest := rfl
    rw [hstep]
    split_ifs
    · exact ih (p :: done) C hsub' hdone' hC
    · refine ih (p :: done) _ hsub' hdone' ?_
      refine middleScan_shape hpin done [] ⟨p, 0⟩ hdone
        (fun x hx => absurd hx (List.not_mem_nil x)) ?_
      rw [point_circle_eq_two p]
      exact Or.inl ⟨p, hpin, p, hpin, rfl⟩

theorem welzl_shape {pts : List PointQ} (hne : pts ≠ []) :
    OutputShape pts (welzl pts) := by
  match pts with
  | p :: rest =>
    have hwe : welzl (p :: rest) = outerScan [p] ⟨p, 0⟩ rest := rfl
    rw [hwe]
    refine outerScan_shape rest [p] ⟨p, 0⟩
      (fun x hx => List.mem_cons_of_mem p hx) ?_ ?_
    · intro x hx
      rcases List.mem_singleton.mp hx with rfl
      exact List.mem_cons_self x rest
    · rw [point_circle_eq_two p]
      exact Or.inl ⟨p, List.mem_cons_self p rest, p, List.mem_cons_self p rest, rfl⟩

theorem welzl_mem_candidates {pts : List PointQ} (hne : pts ≠ []) :
    welzl pts ∈ candidateCircles pts := by
  rcases welzl_shape hne with ⟨a, ha, b, hb, hEq⟩ | ⟨a, ha, b, hb, c, hc, hEq⟩
  · rw [hEq]
    exact two_mem_candidates ha hb
  · exact three_mem_candidates ha hb hc hEq

theorem all_containsQ_iff {C : CircleQ} {pts : List PointQ} :
    pts.all (containsQ C) = true ↔ enclosesR (cR C) (sR C) pts := by
  rw [List.all_eq_true]
  constructor
  · intro h x hx
    exact containsQ_true_iff.mp (h x hx)
  · intro h x hx
    exact containsQ_true_iff.mpr (h x hx)

theorem welzl_mem_validCandidates {pts : List PointQ} (hne : pts ≠ []) :
    welzl pts ∈ validCandidates pts := by
  apply List.mem_filter_of_mem (welzl_mem_candidates hne)
  exact all_containsQ_iff.mpr (welzl_isMinDisk pts hne).1

theorem welzl_le_validCandidates {pts : List PointQ} (hne : pts ≠ []) :
    ∀ C ∈ validCandidates pts, (welzl pts).sqRadius ≤ C.sqRadius := by
  intro C hC
  have hCf : C ∈ (candidateCircles pts).filter (fun D => pts.all (containsQ D)) := hC
  have hencl : enclosesR (cR C) (sR C) pts :=
    all_containsQ_iff.mp (List.mem_filter.mp hCf).2
  have hmin := (welzl_isMinDisk pts hne).2.2 (cR C) (sR C)
    (fun x hx => absurd hx (List.not_mem_nil x)) hencl
  simp only [sR] at hmin
  exact_mod_cast hmin

/-! ### The validating entry point -/

theorem minEnclosingCircle_ok_iff {pts : List RawPoint} {C : CircleQ} :
    minEnclosingCircle pts = .ok C ↔
      pts.all RawPoint.isFinite = true ∧ C = welzl (pts.map RawPoint.toPointQ) := by
  unfold minEnclosingCircle
  split_ifs with h
  · constructor
    · intro hok
      cases hok
      exact ⟨h, rfl⟩
    · intro hok
      rw [hok.2]
  · constructor
    · intro hok
      exact absurd hok (by simp)
    · intro hok
      exact absurd hok.1 h

theorem minEnclosingCircle_error_iff {pts : List RawPoint} {e : MECError} :
    minEnclosingCircle pts = .error e ↔ pts.all RawPoint.isFinite = false := by
  cases e
  unfold minEnclosingCircle
  split_ifs with h
  · simp [h]
  · constructor
    · intro _
      simpa using h
    · intro _
      rfl

/-! ## Claim theorems -/

/-- C1: for every input point set accepted by `minEnclosingCircle`, every
input point `p` satisfies `distance(returned center, p) ≤ returned radius + ε`
for any tolerance `ε ≥ 0` — with exact arithmetic the containment even holds
at `ε = 0`. -/
theorem C1_containment (pts : List RawPoint) (C : CircleQ) (p : RawPoint) (eps : ℝ)
    (hok : minEnclosingCircle pts = .ok C) (hp : p ∈ pts) (heps : 0 ≤ eps) :
    Real.sqrt (sqDistR (cR C) (pR p.toPointQ)) ≤ Real.sqrt (sR C) + eps := by
  obtain ⟨hall, hC⟩ := minEnclosingCircle_ok_iff.mp hok
  subst hC
  have hmem : p.toPointQ ∈ pts.map RawPoint.toPointQ := List.mem_map_of_mem _ hp
  have hne : pts.map RawPoint.toPointQ ≠ [] := by
    intro h0
    rw [h0] at hmem
    exact List.not_mem_nil _ hmem
  have h := (welzl_isMinDisk _ hne).1 _ hmem
  have hs := Real.sqrt_le_sqrt h
  linarith

theorem C1_containment_witness :
    minEnclosingCircle [finiteRaw (0, 0), finiteRaw (2, 0)] = .ok ⟨(1, 0), 1⟩ ∧
      finiteRaw (0, 0) ∈ [finiteRaw (0, 0), finiteRaw (2, 0)] ∧ (0 : ℝ) ≤ (0 : ℝ) ∧
      Real.sqrt (sqDistR (cR ⟨(1, 0), 1⟩) (pR (finiteRaw (0, 0)).toPointQ)) ≤
        Real.sqrt (sR ⟨(1, 0), 1⟩) + 0 := by
  have hok : minEnclosingCircle [finiteRaw (0, 0), finiteRaw (2, 0)] = .ok ⟨(1, 0), 1⟩ := by
    norm_num [minEnclosingCircle, finiteRaw, RawPoint.isFinite, FloatVal.isFinite,
      RawPoint.toPointQ, FloatVal.toRat, welzl, outerScan, middleScan, innerScan,
      solveTrivial, containsQ, sqDistQ, circleFromTwoPoints]
  exact ⟨hok, by simp, le_refl 0,
    C1_containment _ _ _ _ hok (by simp) (le_refl 0)⟩

/-- C2: on every nonempty accepted input the returned circle has non-negative
(squared) radius, encloses-minimally (no circle over the real plane enclosing
all input points has a smaller squared radius), is the unique such minimum
(any enclosing circle of radius at most the returned one coincides with it),
and its squared radius equals the minimum squared radius among the
brute-force pair/triple candidate circles that enclose all input points. -/
theorem C2_minimality (pts : List RawPoint) (C : CircleQ)
    (hok : minEnclosingCircle pts = .ok C) (hne : pts ≠ []) :
    0 ≤ C.sqRadius ∧
      (∀ c2 s2, enclosesR c2 s2 (pts.map RawPoint.toPointQ) → sR C ≤ s2) ∧
      (∀ c2 s2, enclosesR c2 s2 (pts.map RawPoint.toPointQ) → s2 ≤ sR C →
        c2 = cR C ∧ s2 = sR C) ∧
      C ∈ validCandidates (pts.map RawPoint.toPointQ) ∧
      (∀ D ∈ validCandidates (pts.map RawPoint.toPointQ), C.sqRadius ≤ D.sqRadius) := by
  obtain ⟨hall, hC⟩ := minEnclosingCircle_ok_iff.mp hok
  subst hC
  have hqne : pts.map RawPoint.toPointQ ≠ [] := by
    intro h0
    exact hne (List.map_eq_nil_iff.mp h0)
  have hmd := welzl_isMinDisk (pts.map RawPoint.toPointQ) hqne
  refine ⟨welzl_sqRadius_nonneg hqne, ?_, ?_,
    welzl_mem_validCandidates hqne, welzl_le_validCandidates hqne⟩
  · intro c2 s2 h2
    exact hmd.2.2 c2 s2 (fun x hx => absurd hx (List.not_mem_nil x)) h2
  · intro c2 s2 h2 hle
    have hge := hmd.2.2 c2 s2 (fun x hx => absurd hx (List.not_mem_nil x)) h2
    have hse : s2 = sR (welzl (pts.map RawPoint.toPointQ)) := le_antisymm hle hge
    have hmd2 : IsMinDisk (pts.map RawPoint.toPointQ) [] c2 s2 := by
      refine ⟨h2, fun x hx => absurd hx (List.not_mem_nil x), ?_⟩
      intro c3 s3 hB3 h3
      rw [hse]
      exact hmd.2.2 c3 s3 hB3 h3
    obtain ⟨hc, _⟩ := hmd2.unique hmd
    exact ⟨hc, hse⟩

theorem C2_minimality_witness :
    minEnclosingCircle [finiteRaw (0, 0), finiteRaw (2, 0)] = .ok ⟨(1, 0), 1⟩ ∧
      ([finiteRaw (0, 0), finiteRaw (2, 0)] : List RawPoint) ≠ [] ∧
      (0 : ℚ) ≤ (⟨(1, 0), 1⟩ : CircleQ).sqRadius ∧
      (∀ D ∈ validCandidates ([finiteRaw (0, 0), finiteRaw (2, 0)].map RawPoint.toPointQ),
        (⟨(1, 0), 1⟩ : CircleQ).sqRadius ≤ D.sqRadius) := by
  have hok : minEnclosingCircle [finiteRaw (0, 0), finiteRaw (2, 0)] = .ok ⟨(1, 0), 1⟩ := by
    norm_num [minEnclosingCircle, finiteRaw, RawPoint.isFinite, FloatVal.isFinite,
      RawPoint.toPointQ, FloatVal.toRat, welzl, outerScan, middleScan, innerScan,
      solveTrivial, containsQ, sqDistQ, circleFromTwoPoints]
  have h := C2_minimality _ _ hok (by simp)
  exact ⟨hok, by simp, h.1, h.2.2.2.2⟩

/-- C3: the entry point fails iff some input coordinate is non-finite
(NaN or an infinity), the only error value is `InvalidInput` (no partial
result accompanies it), and on fully finite input the call succeeds. -/
theorem C3_error_handling (pts : List RawPoint) :
    ((∃ e, minEnclosingCircle pts = .error e) ↔
      ∃ p ∈ pts, p.x.isFinite = false ∨ p.y.isFinite = false) ∧
    (∀ e, minEnclosingCircle pts = .error e → e = .invalidInput) ∧
    ((∃ C, minEnclosingCircle pts = .ok C) ↔
      ∀ p ∈ pts, p.x.isFinite = true ∧ p.y.isFinite = true) := by
  have hfin : ∀ p : RawPoint, RawPoint.isFinite p = true ↔
      (p.x.isFinite = true ∧ p.y.isFinite = true) := by
    intro p
    simp [RawPoint.isFinite, Bool.and_eq_true]
  refine ⟨?_, ?_, ?_⟩
  · constructor
    · intro ⟨e, he⟩
      have hall := minEnclosingCircle_error_iff.mp he
      have : ¬(∀ p ∈ pts, RawPoint.isFinite p = true) := by
        intro hc
        rw [List.all_eq_true.mpr hc] at hall
        cases hall
      push_neg at this
      obtain ⟨p, hp, hnf⟩ := this
      refine ⟨p, hp, ?_⟩
      by_contra hcon
      push_neg at hcon
      have hx : p.x.isFinite = true := by
        cases hb : p.x.isFinite
        · exact absurd hb hcon.1
        · rfl
      have hy : p.y.isFinite = true := by
        cases hb : p.y.isFinite
        · exact absurd hb hcon.2
        · rfl
      exact hnf ((hfin p).mpr ⟨hx, hy⟩)
    · intro ⟨p, hp, hnf⟩
      refine ⟨.invalidInput, minEnclosingCircle_error_iff.mpr ?_⟩
      cases hall : pts.all RawPoint.isFinite
      · rfl
      · exfalso
        have := List.all_eq_true.mp hall p hp
        obtain ⟨hx, hy⟩ := (hfin p).mp this
        rcases hnf with h | h
        · rw [hx] at h; cases h
        · rw [hy] at h; cases h
  · intro e he
    cases e
    rfl
  · constructor
    · intro ⟨C, hC⟩
      have hall := (minEnclosingCircle_ok_iff.mp hC).1
      intro p hp
      exact (hfin p).mp (List.all_eq_true.mp hall p hp)
    · intro hall
      refine ⟨welzl (pts.map RawPoint.toPointQ), minEnclosingCircle_ok_iff.mpr ⟨?_, rfl⟩⟩
      exact List.all_eq_true.mpr fun p hp => (hfin p).mpr (hall p hp)

theorem C3_error_handling_witness :
    (∃ e, minEnclosingCircle [RawPoint.mk FloatVal.nan (FloatVal.finite 0)] = .error e) ∧
    (∃ p ∈ [RawPoint.mk FloatVal.nan (FloatVal.finite 0)],
      p.x.isFinite = false ∨ p.y.isFinite = false) := by
  have he : minEnclosingCircle [RawPoint.mk FloatVal.nan (FloatVal.finite 0)] =
      .error .invalidInput := by
    norm_num [minEnclosingCircle, RawPoint.isFinite, FloatVal.isFinite]
  exact ⟨⟨.invalidInput, he⟩,
    (C3_error_handling [RawPoint.mk FloatVal.nan (FloatVal.finite 0)]).1.mp
      ⟨.invalidInput, he⟩⟩

/-- C4: the trivial-case solver on exactly three points returns the first of
the three two-point diameter circles that encloses the remaining point, and
only when none of the three encloses the remaining point does it return the
circumcircle `circleFromThreePoints` (which is then guaranteed to exist: the
three points cannot be collinear in that case). -/
theorem C4_trivial_three (a b c : PointQ) :
    (containsQ (circleFromTwoPoints a b) c = true →
      solveTrivial [a, b, c] = circleFromTwoPoints a b) ∧
    (containsQ (circleFromTwoPoints a b) c = false →
      containsQ (circleFromTwoPoints a c) b = true →
      solveTrivial [a, b, c] = circleFromTwoPoints a c) ∧
    (containsQ (circleFromTwoPoints a b) c = false →
      containsQ (circleFromTwoPoints a c) b = false →
      containsQ (circleFromTwoPoints b c) a = true →
      solveTrivial [a, b, c] = circleFromTwoPoints b c) ∧
    (containsQ (circleFromTwoPoints a b) c = false →
      containsQ (circleFromTwoPoints a c) b = false →
      containsQ (circleFromTwoPoints b c) a = false →
      circumDet a b c ≠ 0 ∧ some (solveTrivial [a, b, c]) = circleFromThreePoints a b c) := by
  have hstep : solveTrivial [a, b, c] =
      if containsQ (circleFromTwoPoints a b) c then circleFromTwoPoints a b
      else if containsQ (circleFromTwoPoints a c) b then circleFromTwoPoints a c
      else if containsQ (circleFromTwoPoints b c) a then circleFromTwoPoints b c
      else (circleFromThreePoints a b c).getD (circleFromTwoPoints a b) := rfl
  refine ⟨?_, ?_, ?_, ?_⟩
  · intro h1
    rw [hstep]
    simp [h1]
  · intro h1 h2
    rw [hstep]
    simp [h1, h2]
  · intro h1 h2 h3
    rw [hstep]
    simp [h1, h2, h3]
  · intro h1 h2 h3
    have hdet : circumDet a b c ≠ 0 := by
      intro h0
      rcases collinear_some_diam h0 with h | h | h
      · rw [h1] at h; cases h
      · rw [h2] at h; cases h
      · rw [h3] at h; cases h
    have hsome : circleFromThreePoints a b c =
        some ⟨circumCenter a b c, sqDistQ (circumCenter a b c) a⟩ := by
      simp [circleFromThreePoints, hdet]
    refine ⟨hdet, ?_⟩
    rw [hstep]
    simp [h1, h2, h3, hsome]

theorem C4_trivial_three_witness :
    containsQ (circleFromTwoPoints (0, 0) (2, 0)) (1, 0) = true ∧
      solveTrivial [(0, 0), (2, 0), (1, 0)] = circleFromTwoPoints (0, 0) (2, 0) := by
  have h1 : containsQ (circleFromTwoPoints (0, 0) (2, 0)) ((1 : ℚ), (0 : ℚ)) = true := by
    norm_num [containsQ, circleFromTwoPoints, sqDistQ]
  exact ⟨h1, (C4_trivial_three (0, 0) (2, 0) (1, 0)).1 h1⟩

/-- C5: degenerate small inputs — empty input gives the radius-0 sentinel at
the origin; a single point gives radius 0 at that point; two identical points
give radius 0; the two distinct points (0,0) and (2,0) give center (1,0) and
radius 1 (squared radius 1). -/
theorem C5_degenerate :
    minEnclosingCircle [] = .ok ⟨(0, 0), 0⟩ ∧
    (∀ p : PointQ, minEnclosingCircle [finiteRaw p] = .ok ⟨p, 0⟩) ∧
    (∀ p : PointQ, minEnclosingCircle [finiteRaw p, finiteRaw p] = .ok ⟨p, 0⟩) ∧
    minEnclosingCircle [finiteRaw (0, 0), finiteRaw (2, 0)] = .ok ⟨(1, 0), 1⟩ ∧
    Real.sqrt (sR ⟨(1, 0), 1⟩) = 1 := by
  have hself : ∀ x : PointQ, containsQ ⟨x, 0⟩ x = true := by
    intro x
    simp [containsQ, sqDistQ]
  refine ⟨rfl, ?_, ?_, ?_, ?_⟩
  · intro p
    simp [minEnclosingCircle, finiteRaw, RawPoint.isFinite, FloatVal.isFinite,
      RawPoint.toPointQ, FloatVal.toRat, welzl, solveTrivial, outerScan]
  · intro p
    simp [minEnclosingCircle, finiteRaw, RawPoint.isFinite, FloatVal.isFinite,
      RawPoint.toPointQ, FloatVal.toRat, welzl, solveTrivial, outerScan, hself]
  · norm_num [minEnclosingCircle, finiteRaw, RawPoint.isFinite, FloatVal.isFinite,
      RawPoint.toPointQ, FloatVal.toRat, welzl, outerScan, middleScan, innerScan,
      solveTrivial, containsQ, sqDistQ, circleFromTwoPoints]
  · have h1 : sR ⟨(1, 0), 1⟩ = 1 := by norm_num [sR]
    rw [h1]
    exact Real.sqrt_one

/-- C6: on the collinear input (0,0), (1,0), (2,0) the solver succeeds with
center (1,0) and radius 1; and inside `circleFromThreePoints` a collinear
triple is signalled as degenerate (`none`) and recovered locally by the
pairwise two-point fallback — it always yields one of the three diameter
circles, never an error. -/
theorem C6_collinear :
    minEnclosingCircle [finiteRaw (0, 0), finiteRaw (1, 0), finiteRaw (2, 0)] =
      .ok ⟨(1, 0), 1⟩ ∧
    (∀ a b c : PointQ, circumDet a b c = 0 →
      circleFromThreePoints a b c = none ∧
      (circleFromThreePointsSafe a b c = circleFromTwoPoints a b ∨
        circleFromThreePointsSafe a b c = circleFromTwoPoints a c ∨
        circleFromThreePointsSafe a b c = circleFromTwoPoints b c)) := by
  constructor
  · norm_num [minEnclosingCircle, finiteRaw, RawPoint.isFinite, FloatVal.isFinite,
      RawPoint.toPointQ, FloatVal.toRat, welzl, outerScan, middleScan, innerScan,
      solveTrivial, containsQ, sqDistQ, circleFromTwoPoints]
  · intro a b c h0
    have hnone : circleFromThreePoints a b c = none := by
      simp [circleFromThreePoints, h0]
    refine ⟨hnone, ?_⟩
    unfold circleFromThreePointsSafe
    rw [hnone, Option.getD_none]
    split_ifs
    · exact Or.inl rfl
    · exact Or.inr (Or.inl rfl)
    · exact Or.inr (Or.inr rfl)

theorem C6_collinear_witness :
    circumDet (0, 0) (1, 0) (2, 0) = 0 ∧
      circleFromThreePoints ((0 : ℚ), (0 : ℚ)) (1, 0) (2, 0) = none := by
  have h0 : circumDet ((0 : ℚ), (0 : ℚ)) (1, 0) (2, 0) = 0 := by
    norm_num [circumDet]
  exact ⟨h0, ((C6_collinear).2 (0, 0) (1, 0) (2, 0) h0).1⟩

/-- C7: the returned circle does not depend on the order of the input
sequence — any permutation of the input yields the same result (identical
center and squared radius, and identical error behaviour). -/
theorem C7_permutation (pts pts' : List RawPoint) (h : List.Perm pts pts') :
    minEnclosingCircle pts = minEnclosingCircle pts' := by
  have hiff : pts.all RawPoint.isFinite = true ↔ pts'.all RawPoint.isFinite = true := by
    rw [List.all_eq_true, List.all_eq_true]
    exact ⟨fun H p hp => H p (h.mem_iff.mpr hp), fun H p hp => H p (h.mem_iff.mp hp)⟩
  unfold minEnclosingCircle
  split_ifs with h1 h2 h3
  · refine congrArg Except.ok (welzl_members_eq fun x => ?_)
    exact (h.map RawPoint.toPointQ).mem_iff
  · exact absurd (hiff.mp h1) h2
  · exact absurd (hiff.mpr h3) h1
  · rfl

theorem C7_permutation_witness :
    List.Perm [finiteRaw (0, 0), finiteRaw (2, 0)] [finiteRaw (2, 0), finiteRaw (0, 0)] ∧
      minEnclosingCircle [finiteRaw (0, 0), finiteRaw (2, 0)] =
        minEnclosingCircle [finiteRaw (2, 0), finiteRaw (0, 0)] :=
  ⟨List.Perm.swap (finiteRaw (2, 0)) (finiteRaw (0, 0)) [],
    C7_permutation _ _ (List.Perm.swap (finiteRaw (2, 0)) (finiteRaw (0, 0)) [])⟩

/-- C8: duplicated input points do not distort the result — the solver
returns on the deduplicated input exactly what it returns on the original
input (including error behaviour). -/
theorem C8_duplicates (pts : List RawPoint) :
    minEnclosingCircle pts.dedup = minEnclosingCircle pts := by
  have hmem : ∀ p : RawPoint, p ∈ pts.dedup ↔ p ∈ pts := fun p => List.mem_dedup
  have hiff : pts.dedup.all RawPoint.isFinite = true ↔ pts.all RawPoint.isFinite = true := by
    rw [List.all_eq_true, List.all_eq_true]
    exact ⟨fun H p hp => H p ((hmem p).mpr hp), fun H p hp => H p ((hmem p).mp hp)⟩
  unfold minEnclosingCircle
  split_ifs with h1 h2 h3
  · refine congrArg Except.ok (welzl_members_eq fun x => ?_)
    rw [List.mem_map, List.mem_map]
    constructor
    · intro ⟨r, hr, hrx⟩
      exact ⟨r, (hmem r).mp hr, hrx⟩
    · intro ⟨r, hr, hrx⟩
      exact ⟨r, (hmem r).mpr hr, hrx⟩
  · exact absurd (hiff.mp h1) h2
  · exact absurd (hiff.mpr h3) h1
  · rfl

/-- C10: every successful call of the public binding returns a pair whose
first component is the center as a flat sequence of exactly two coordinates
(destructurable as (x, y)) and whose second component is the scalar (squared)
radius. -/
theorem C10_result_shape (pts : List RawPoint) (res : List ℚ × ℚ)
    (h : min_enclosing_circle pts = .ok res) :
    res.1.length = 2 ∧ ∃ x y : ℚ, res.1 = [x, y] ∧ res = ([x, y], res.2) := by
  unfold min_enclosing_circle at h
  cases hm : minEnclosingCircle pts with
  | error e =>
    rw [hm] at h
    exact absurd h (by simp [Except.map])
  | ok C =>
    rw [hm] at h
    simp only [Except.map, Except.ok.injEq] at h
    subst h
    exact ⟨rfl, C.center.1, C.center.2, rfl, rfl⟩

theorem C10_result_shape_witness :
    min_enclosing_circle [finiteRaw (0, 0), finiteRaw (2, 0)] = .ok ([1, 0], 1) ∧
      ([(1 : ℚ), 0].length = 2 ∧
        ∃ x y : ℚ, [(1 : ℚ), (0 : ℚ)] = [x, y] ∧
          (([(1 : ℚ), 0], (1 : ℚ)) : List ℚ × ℚ) = ([x, y], (([(1 : ℚ), 0], (1 : ℚ)) : List ℚ × ℚ).2)) := by
  have hok : min_enclosing_circle [finiteRaw (0, 0), finiteRaw (2, 0)] = .ok ([1, 0], 1) := by
    norm_num [min_enclosing_circle, minEnclosingCircle, finiteRaw, RawPoint.isFinite,
      FloatVal.isFinite, RawPoint.toPointQ, FloatVal.toRat, welzl, outerScan, middleScan,
      innerScan, solveTrivial, containsQ, sqDistQ, circleFromTwoPoints, Except.map]
  exact ⟨hok, C10_result_shape _ _ hok⟩

end MEC
